import Mathlib

/-!
Shallow embedding of `src/process.py` (kernel-snap revision survey tool).

The script has three parts:
  * `get_current_revision` — runs `snap info`, scans stdout lines with
    `REVISION_REGEX = r"\d{4}-\d{2}-\d{2}\s+\((\d+)\)"` via `re.search`,
    and returns `max` of the collected integers.
  * `process_revision` — downloads a revision, extracts `meta/snap.yaml`,
    and reads `version` and `architectures[0]`.
  * `main` — builds `range(current_revision, 0, -1)`, submits each revision
    to a thread pool, collects outcomes in completion order into a dict,
    and writes a CSV sorted by revision.

External effects (subprocess exits, filesystem, yaml content) are modelled
as explicit inputs; Python exceptions become `Except` errors named after the
spec's error taxonomy (a `CalledProcessError` from `snap info` is
`SourceUnavailable`, the `ValueError` from `max([])` is `NoRevisionsFound`,
`KeyError`/`IndexError` while reading the manifest are `ManifestInvalid`).
-/

/-- `\d` of the pattern (ASCII digits, as produced by `snap info`). -/
def isDigitChar (c : Char) : Bool := '0' ≤ c && c ≤ '9'

/-- `\s` of the pattern: Python whitespace characters. -/
def isSpaceChar (c : Char) : Bool :=
  c = ' ' || c = '\t' || c = '\n' || c = '\r' || c = '\x0b' || c = '\x0c'

/-- `int(...)` on the captured digit string. -/
def digitsToNat (ds : List Char) : Nat :=
  ds.foldl (fun a c => 10 * a + (c.toNat - 48)) 0

/-- Consume exactly `n` digits (`\d{n}`), returning the rest of the line. -/
def takeExactDigits : Nat → List Char → Option (List Char)
  | 0, cs => some cs
  | _ + 1, [] => none
  | n + 1, c :: cs => if isDigitChar c then takeExactDigits n cs else none

/-- Consume one expected literal character. -/
def expectChar (c : Char) : List Char → Option (List Char)
  | [] => none
  | d :: cs => if d = c then some cs else none

/-- Attempt to match `REVISION_REGEX = \d{4}-\d{2}-\d{2}\s+\((\d+)\)` at the
start of `cs`, returning the captured group as a number.  For `\s+\(` and
`(\d+)\)` greedy matching with backtracking is equivalent to taking the
maximal run and then requiring the literal, because a shorter run would end
on a character of the same class, which cannot equal the literal. -/
def matchAt (cs : List Char) : Option Nat := do
  let cs ← takeExactDigits 4 cs
  let cs ← expectChar '-' cs
  let cs ← takeExactDigits 2 cs
  let cs ← expectChar '-' cs
  let cs ← takeExactDigits 2 cs
  let ws := cs.takeWhile isSpaceChar
  if ws.isEmpty then none else do
  let cs ← expectChar '(' (cs.dropWhile isSpaceChar)
  let ds := cs.takeWhile isDigitChar
  if ds.isEmpty then none else do
  let _ ← expectChar ')' (cs.dropWhile isDigitChar)
  some (digitsToNat ds)

/-- `re.search(REVISION_REGEX, line)`: try each start position left to
right and return the first (leftmost) match's captured number. -/
def searchRevision : List Char → Option Nat
  | [] => none
  | c :: cs =>
    match matchAt (c :: cs) with
    | some n => some n
    | none => searchRevision cs

/-- Python's `s.split("\n")`: cut at every newline, keeping empty pieces
(`"".split("\n") == [""]`, a trailing newline yields a final `""`). -/
def splitLines : List Char → List (List Char)
  | [] => [[]]
  | c :: rest =>
    let r := splitLines rest
    if c = '\n' then [] :: r
    else
      match r with
      | [] => [[c]]
      | l :: ls => (c :: l) :: ls

/-- The `revisions` list built by the scan loop of `get_current_revision`:
`result.stdout.split("\n")`, one `re.search` per line, appending
`int(match.group(1))` when it matches. -/
def collectRevisions (stdout : String) : List Nat :=
  (splitLines stdout.data).filterMap searchRevision

/-- Errors of the discovery stage, named as in the spec. -/
inductive SourceError where
  | SourceUnavailable
  | NoRevisionsFound
  deriving DecidableEq, Repr

/-- `get_current_revision(snap_name)`.  `queryOk` models the exit status of
`snap info` (`check=True` raises `CalledProcessError`, i.e.
`SourceUnavailable`); `stdout` is its captured output.  `max([])` raises
`ValueError`, the spec's `NoRevisionsFound`; otherwise the Python `max` of
the collected list is returned. -/
def get_current_revision (queryOk : Bool) (stdout : String) : Except SourceError Nat :=
  if queryOk then
    match collectRevisions stdout with
    | [] => .error .NoRevisionsFound
    | r :: rs => .ok (rs.foldl Nat.max r)
  else .error .SourceUnavailable

/-- The parsed `meta/snap.yaml` mapping, restricted to the keys the script
reads.  `none` models an absent key (Python `KeyError` on access). -/
structure SnapYaml where
  version : Option String
  architectures : Option (List String)
  deriving DecidableEq, Repr

/-- Errors of the per-revision extraction, named as in the spec. -/
inductive ExtractError where
  | FetchFailed
  | ExtractFailed
  | ManifestInvalid
  deriving DecidableEq, Repr

/-- The external state one call to `process_revision` observes: exit status
of `snap download`, exit status of `unsquashfs`, and the parsed manifest
(`none` when the extracted file is absent or unreadable). -/
structure RevisionEnv where
  downloadOk : Bool
  unsquashOk : Bool
  snapYaml : Option SnapYaml
  deriving DecidableEq, Repr

/-- `process_revision(snap_name, revision)`.  Each `check=True` subprocess
raises on non-zero exit (`FetchFailed` for `snap download`, `ExtractFailed`
for `unsquashfs`); a missing or unreadable `meta/snap.yaml` is the
`ExtractFailed` stage as well.  `snap_yaml["version"]` raises `KeyError`
when absent and `snap_yaml["architectures"][0]` raises `KeyError` /
`IndexError` when the key is absent or the list empty — list access is
modelled totally via `List.get?`, so an empty list yields an error rather
than any out-of-bounds read; all three are the spec's `ManifestInvalid`. -/
def process_revision (env : RevisionEnv) : Except ExtractError (String × String) :=
  if !env.downloadOk then .error .FetchFailed
  else if !env.unsquashOk then .error .ExtractFailed
  else
    match env.snapYaml with
    | none => .error .ExtractFailed
    | some y =>
      match y.version with
      | none => .error .ManifestInvalid
      | some v =>
        match y.architectures with
        | none => .error .ManifestInvalid
        | some archs =>
          match archs.get? 0 with
          | none => .error .ManifestInvalid
          | some a => .ok (v, a)

/-- `list(range(current_revision, 0, -1))`: the descending sequence
`n, n-1, ..., 1`. -/
def descRange : Nat → List Nat
  | 0 => []
  | n + 1 => (n + 1) :: descRange n

/-- The ascending counterpart `1, 2, ..., n`, used only to state canonical
(sorted) results. -/
def ascRange (n : Nat) : List Nat := (descRange n).reverse

/-- The whole external world one run of `main` observes: the registry
query's outcome and, for each revision number, the archive/manifest state
`process_revision` would see. -/
structure Env where
  queryOk : Bool
  registry : String
  revEnv : Nat → RevisionEnv

/-- The outcome a worker produces for revision `r` (the `future.result()`
value or the exception it re-raises). -/
def outcome (env : Env) (r : Nat) : Except ExtractError (String × String) :=
  process_revision (env.revEnv r)

/-- `results[rev] = (version, architecture)` on success, skipped on
exception: one dict entry per successful revision, in completion order. -/
def revisionRow (env : Env) (r : Nat) : Option (Nat × String × String) :=
  match outcome env r with
  | .ok (v, a) => some (r, v, a)
  | .error _ => none

/-- The collection loop over `as_completed(futures)`: `order` is the
completion order of the submitted revisions.  Successes land in the
`results` dict (insertion order = completion order). -/
def collectResults (env : Env) (order : List Nat) : List (Nat × String × String) :=
  order.filterMap (revisionRow env)

/-- The revisions whose exception was caught and logged by the collection
loop (`logging.error(...)`), in completion order. -/
def collectErrors (env : Env) (order : List Nat) : List Nat :=
  order.filter (fun r => (revisionRow env r).isNone)

/-- Insert one dict item into a list sorted ascending by revision key. -/
def insertPair (p : Nat × String × String) :
    List (Nat × String × String) → List (Nat × String × String)
  | [] => [p]
  | q :: qs => if p.1 ≤ q.1 then p :: q :: qs else q :: insertPair p qs

/-- Python's `sorted(results.items())`: dict keys are distinct, so sorting
the pairs lexicographically is sorting by revision key. -/
def sortPairs (l : List (Nat × String × String)) : List (Nat × String × String) :=
  l.foldr insertPair []

/-- `csv.writer`'s first `writerow`. -/
def headerRow : List String := ["revision", "version", "architecture"]

/-- One data `writerow`: the int revision is serialized via `str`. -/
def rowStrings (p : Nat × String × String) : List String :=
  [toString p.1, p.2.1, p.2.2]

/-- Everything observable about one run of `main` (after argument parsing):
which revisions were submitted to the pool, the final `results` dict, the
logged per-revision failures, the contents written to the output file
(`none` when the run died before `open(args.output, "w")`), and the fatal
discovery-stage error, if any. -/
structure RunState where
  scheduled : List Nat
  results : List (Nat × String × String)
  errors : List Nat
  file : Option (List (List String))
  fatal : Option SourceError
  deriving Repr

/-- `main()` for a fixed external world `env`, with `order` the completion
order in which `as_completed` yields the submitted futures.  A failing
`get_current_revision` propagates out of `main` before any submission and
before the output file is opened. -/
def mainRun (env : Env) (order : List Nat) : RunState :=
  match get_current_revision env.queryOk env.registry with
  | .error e => ⟨[], [], [], none, some e⟩
  | .ok cur =>
    let revisions := descRange cur
    let results := collectResults env order
    let errors := collectErrors env order
    ⟨revisions, results, errors,
      some (headerRow :: (sortPairs results).map rowStrings), none⟩

/-! ### Properties of the revision domain `range(cur, 0, -1)` -/

theorem descRange_length (n : Nat) : (descRange n).length = n := by
  induction n with
  | zero => rfl
  | succ n ih => simp [descRange, ih]

theorem mem_descRange {r n : Nat} : r ∈ descRange n ↔ 1 ≤ r ∧ r ≤ n := by
  induction n with
  | zero =>
    simp only [descRange, List.not_mem_nil, false_iff]
    omega
  | succ n ih =>
    simp only [descRange, List.mem_cons, ih]
    omega

theorem descRange_pairwise_gt (n : Nat) : (descRange n).Pairwise (fun a b => b < a) := by
  induction n with
  | zero => exact List.Pairwise.nil
  | succ n ih =>
    refine List.pairwise_cons.mpr ⟨fun r hr => ?_, ih⟩
    exact Nat.lt_succ_of_le (mem_descRange.mp hr).2

theorem descRange_nodup (n : Nat) : (descRange n).Nodup := by
  refine List.Pairwise.imp ?_ (descRange_pairwise_gt n)
  exact fun h => Nat.ne_of_gt h

theorem descRange_getElem? {n i : Nat} (h : i < n) :
    (descRange n)[i]? = some (n - i) := by
  induction n generalizing i with
  | zero => omega
  | succ n ih =>
    cases i with
    | zero => simp [descRange]
    | succ i =>
      have hi : i < n := by omega
      simpa [descRange] using ih hi

theorem ascRange_perm_descRange (n : Nat) : (ascRange n).Perm (descRange n) :=
  List.reverse_perm (descRange n)

theorem ascRange_pairwise_lt (n : Nat) : (ascRange n).Pairwise (fun a b => a < b) := by
  unfold ascRange
  exact List.pairwise_reverse.mpr (descRange_pairwise_gt n)

theorem mem_ascRange {r n : Nat} : r ∈ ascRange n ↔ 1 ≤ r ∧ r ≤ n := by
  unfold ascRange
  rw [List.mem_reverse]
  exact mem_descRange

/-! ### Properties of Python `max` over a non-empty list -/

theorem foldl_max_base_le (r : Nat) (rs : List Nat) : r ≤ rs.foldl Nat.max r := by
  induction rs generalizing r with
  | nil => exact Nat.le_refl r
  | cons a rs ih =>
    calc r ≤ Nat.max r a := Nat.le_max_left r a
    _ ≤ rs.foldl Nat.max (Nat.max r a) := ih (Nat.max r a)
    _ = (a :: rs).foldl Nat.max r := rfl

theorem foldl_max_elem_le {x : Nat} (r : Nat) (rs : List Nat) (hx : x ∈ rs) :
    x ≤ rs.foldl Nat.max r := by
  induction rs generalizing r with
  | nil => cases hx
  | cons a rs ih =>
    rcases List.mem_cons.mp hx with h | h
    · subst h
      calc x ≤ Nat.max r x := Nat.le_max_right r x
      _ ≤ rs.foldl Nat.max (Nat.max r x) := foldl_max_base_le _ _
    · exact ih (Nat.max r a) h

theorem foldl_max_mem (r : Nat) (rs : List Nat) : rs.foldl Nat.max r ∈ r :: rs := by
  induction rs generalizing r with
  | nil => exact List.mem_singleton.mpr rfl
  | cons a rs ih =>
    have := ih (Nat.max r a)
    rcases List.mem_cons.mp this with h | h
    · have hm : Nat.max r a = r ∨ Nat.max r a = a := by
        rcases Nat.le_total r a with hle | hle
        · exact Or.inr (Nat.max_eq_right hle)
        · exact Or.inl (Nat.max_eq_left hle)
      rcases hm with hm | hm <;> rw [List.foldl_cons, h, hm]
      · exact List.mem_cons_self _ _
      · exact List.mem_cons_of_mem _ (List.mem_cons_self _ _)
    · exact List.mem_cons_of_mem _ (List.mem_cons_of_mem _ h)

/-! ### Sorting the `results` dict items by revision key -/

/-- Comparison used by `sorted(results.items())` (keys are distinct, so the
lexicographic tuple order is the key order). -/
def keyLE (p q : Nat × String × String) : Prop := p.1 ≤ q.1

/-- Strict key order: what ascending output with distinct keys satisfies. -/
def keyLT (p q : Nat × String × String) : Prop := p.1 < q.1

theorem insertPair_perm (p : Nat × String × String) (l : List (Nat × String × String)) :
    (insertPair p l).Perm (p :: l) := by
  induction l with
  | nil => exact List.Perm.refl _
  | cons q qs ih =>
    by_cases h : p.1 ≤ q.1
    · simp [insertPair, h]
    · simp only [insertPair, h, if_false]
      exact (List.Perm.cons q ih).trans (List.Perm.swap p q qs)

theorem sortPairs_perm (l : List (Nat × String × String)) : (sortPairs l).Perm l := by
  induction l with
  | nil => exact List.Perm.refl _
  | cons p ps ih =>
    exact (insertPair_perm p (sortPairs ps)).trans (List.Perm.cons p ih)

theorem insertPair_pairwise (p : Nat × String × String)
    {l : List (Nat × String × String)} (h : l.Pairwise keyLE) :
    (insertPair p l).Pairwise keyLE := by
  induction l with
  | nil => simp [insertPair, List.pairwise_cons]
  | cons q qs ih =>
    rcases List.pairwise_cons.mp h with ⟨hq, hqs⟩
    by_cases hle : p.1 ≤ q.1
    · simp only [insertPair, hle, if_true]
      refine List.pairwise_cons.mpr ⟨?_, h⟩
      intro x hx
      rcases List.mem_cons.mp hx with hx | hx
      · exact hx ▸ hle
      · exact Nat.le_trans hle (hq x hx)
    · simp only [insertPair, hle, if_false]
      refine List.pairwise_cons.mpr ⟨?_, ih hqs⟩
      intro x hx
      have hx' : x ∈ p :: qs := (insertPair_perm p qs).mem_iff.mp hx
      rcases List.mem_cons.mp hx' with hx' | hx'
      · exact hx' ▸ Nat.le_of_lt (Nat.lt_of_not_le hle)
      · exact hq x hx'

theorem sortPairs_pairwise (l : List (Nat × String × String)) :
    (sortPairs l).Pairwise keyLE := by
  induction l with
  | nil => exact List.Pairwise.nil
  | cons p ps ih => exact insertPair_pairwise p ih

theorem pairwise_keyLT_unique {l₁ l₂ : List (Nat × String × String)} (hp : l₁.Perm l₂)
    (h₁ : l₁.Pairwise keyLT) (h₂ : l₂.Pairwise keyLT) : l₁ = l₂ := by
  haveI : IsAntisymm (Nat × String × String) keyLT :=
    ⟨fun a b hab hba => absurd (Nat.lt_trans hab hba) (Nat.lt_irrefl _)⟩
  exact List.eq_of_perm_of_sorted hp h₁ h₂

theorem pairwise_keyLE_lt {l : List (Nat × String × String)}
    (hle : l.Pairwise keyLE) (hnd : (l.map Prod.fst).Nodup) : l.Pairwise keyLT := by
  have hne : l.Pairwise (fun a b => a.1 ≠ b.1) := List.pairwise_map.mp hnd
  exact (hle.and hne).imp (fun h => Nat.lt_of_le_of_ne h.1 h.2)

/-! ### The collection loop -/

theorem revisionRow_key {env : Env} {r : Nat} {p : Nat × String × String}
    (h : revisionRow env r = some p) : p.1 = r := by
  unfold revisionRow at h
  cases ho : outcome env r with
  | ok m => rw [ho] at h; cases h; rfl
  | error e => rw [ho] at h; cases h

theorem revisionRow_eq_some_iff {env : Env} {x r : Nat} {v a : String} :
    revisionRow env x = some (r, v, a) ↔ x = r ∧ outcome env x = .ok (v, a) := by
  unfold revisionRow
  cases ho : outcome env x with
  | ok m =>
    constructor
    · intro h
      cases h
      exact ⟨rfl, rfl⟩
    · rintro ⟨rfl, h⟩
      cases h
      rfl
  | error e =>
    constructor
    · intro h
      cases h
    · rintro ⟨rfl, h⟩
      cases h

theorem map_fst_collectResults (env : Env) (order : List Nat) :
    (collectResults env order).map Prod.fst =
      order.filter (fun r => (revisionRow env r).isSome) := by
  induction order with
  | nil => rfl
  | cons r rs ih =>
    simp only [collectResults, List.filterMap_cons, List.filter_cons] at ih ⊢
    cases h : revisionRow env r with
    | none => simpa [h] using ih
    | some p =>
      have : p.1 = r := revisionRow_key h
      simp [h, ih, this]

theorem collect_asc_pairwise (env : Env) (cur : Nat) :
    (collectResults env (ascRange cur)).Pairwise keyLT := by
  unfold collectResults
  refine List.pairwise_filterMap.mpr ?_
  refine (ascRange_pairwise_lt cur).imp ?_
  intro a b hab x hx y hy
  have hx' : x.1 = a := revisionRow_key hx
  have hy' : y.1 = b := revisionRow_key hy
  unfold keyLT
  rw [hx', hy']
  exact hab

theorem collect_nodup_keys (env : Env) {order : List Nat} (hnd : order.Nodup) :
    ((collectResults env order).map Prod.fst).Nodup := by
  rw [map_fst_collectResults]
  exact hnd.filter _

/-- Whatever the completion order, sorting the `results` dict by key gives
the canonical ascending row list. -/
theorem sortPairs_collect_canonical (env : Env) {cur : Nat} {order : List Nat}
    (hord : order.Perm (descRange cur)) :
    sortPairs (collectResults env order) = collectResults env (ascRange cur) := by
  have hperm : (sortPairs (collectResults env order)).Perm
      (collectResults env (ascRange cur)) := by
    have h1 := sortPairs_perm (collectResults env order)
    have h2 := hord.filterMap (revisionRow env)
    have h3 := (ascRange_perm_descRange cur).filterMap (revisionRow env)
    exact (h1.trans h2).trans h3.symm
  have hnd : order.Nodup := (descRange_nodup cur).perm hord.symm
  have hndk : ((sortPairs (collectResults env order)).map Prod.fst).Nodup := by
    have h1 := collect_nodup_keys env hnd
    exact h1.perm ((sortPairs_perm (collectResults env order)).map Prod.fst).symm
  exact pairwise_keyLT_unique hperm
    (pairwise_keyLE_lt (sortPairs_pairwise _) hndk)
    (collect_asc_pairwise env cur)

theorem mem_collect_asc {env : Env} {cur r : Nat} {v a : String} :
    (r, v, a) ∈ collectResults env (ascRange cur) ↔
      1 ≤ r ∧ r ≤ cur ∧ outcome env r = .ok (v, a) := by
  unfold collectResults
  rw [List.mem_filterMap]
  constructor
  · rintro ⟨x, hx, hrow⟩
    rcases revisionRow_eq_some_iff.mp hrow with ⟨rfl, hout⟩
    rcases mem_ascRange.mp hx with ⟨h1, h2⟩
    exact ⟨h1, h2, hout⟩
  · rintro ⟨h1, h2, hout⟩
    exact ⟨r, mem_ascRange.mpr ⟨h1, h2⟩, revisionRow_eq_some_iff.mpr ⟨rfl, hout⟩⟩

/-- Unfolding `main` past a successful discovery stage. -/
theorem mainRun_ok (env : Env) (order : List Nat) (cur : Nat)
    (hcur : get_current_revision env.queryOk env.registry = .ok cur) :
    mainRun env order =
      ⟨descRange cur, collectResults env order, collectErrors env order,
        some (headerRow :: (sortPairs (collectResults env order)).map rowStrings),
        none⟩ := by
  unfold mainRun
  rw [hcur]

theorem length_filterMap_all_some {α β : Type _} (f : α → Option β) (l : List α)
    (h : ∀ x ∈ l, (f x).isSome = true) : (l.filterMap f).length = l.length := by
  induction l with
  | nil => rfl
  | cons a l ih =>
    rcases Option.isSome_iff_exists.mp (h a (List.mem_cons_self a l)) with ⟨b, hb⟩
    simp [List.filterMap_cons, hb,
      ih (fun x hx => h x (List.mem_cons_of_mem a hx))]

theorem length_filterMap_single_none {α β : Type _} (f : α → Option β) (l : List α)
    (r₀ : α) (hnd : l.Nodup) (hmem : r₀ ∈ l) (hfail : f r₀ = none)
    (hok : ∀ x ∈ l, x ≠ r₀ → (f x).isSome = true) :
    (l.filterMap f).length = l.length - 1 := by
  induction l with
  | nil => cases hmem
  | cons a l ih =>
    rcases List.nodup_cons.mp hnd with ⟨hna, hndl⟩
    rcases List.mem_cons.mp hmem with heq | hmem'
    · subst heq
      have hrest : (l.filterMap f).length = l.length :=
      length_filterMap_all_some f l
        (fun x hx => hok x (List.mem_cons_of_mem _ hx) (fun he => hna (he ▸ hx)))
      simp [List.filterMap_cons, hfail, hrest]
    · have hane : a ≠ r₀ := fun he => hna (he ▸ hmem')
      rcases Option.isSome_iff_exists.mp
        (hok a (List.mem_cons_self a l) hane) with ⟨b, hb⟩
      have hll : 1 ≤ l.length := List.length_pos.mpr (List.ne_nil_of_mem hmem')
      have ihl := ih hndl hmem'
        (fun x hx hxne => hok x (List.mem_cons_of_mem a hx) hxne)
      simp only [List.filterMap_cons, hb, List.length_cons, ihl]
      omega

/-- The maximum `get_current_revision` returns when the scan found
anything: it is a collected candidate and bounds every candidate. -/
theorem currentRevision_is_max (t : String) (hne : collectRevisions t ≠ []) :
    ∃ m, get_current_revision true t = .ok m ∧ m ∈ collectRevisions t ∧
      ∀ x ∈ collectRevisions t, x ≤ m := by
  cases hc : collectRevisions t with
  | nil => exact absurd hc hne
  | cons r rs =>
    refine ⟨rs.foldl Nat.max r, ?_, ?_, ?_⟩
    · unfold get_current_revision
      rw [hc]
      rfl
    · exact foldl_max_mem r rs
    · intro x hx
      rcases List.mem_cons.mp hx with h | h
      · exact h ▸ foldl_max_base_le r rs
      · exact foldl_max_elem_le r rs h

/-! ### The claims -/

/-- C1: for every manifest whose architecture list is present but empty,
`process_revision` (the spec's `Extract`) fails with `ManifestInvalid`: the
access `snap_yaml["architectures"][0]` raises instead of producing any
value, whether or not `version` is present, and no out-of-bounds element is
ever read (the embedding accesses the list only through the total
`List.get?`). -/
theorem extract_empty_architectures_manifestInvalid (env : RevisionEnv)
    (y : SnapYaml) (hdl : env.downloadOk = true) (hus : env.unsquashOk = true)
    (hy : env.snapYaml = some y) (harch : y.architectures = some []) :
    process_revision env = .error .ManifestInvalid := by
  unfold process_revision
  rw [hdl, hus, hy]
  cases hv : y.version <;> simp [hv, harch]

/-- Witness for C1 at a concrete manifest with an empty architecture
list. -/
theorem extract_empty_architectures_manifestInvalid_witness :
    process_revision ⟨true, true, some ⟨some "5.15.0-91.101", some []⟩⟩ =
      .error .ManifestInvalid :=
  extract_empty_architectures_manifestInvalid
    ⟨true, true, some ⟨some "5.15.0-91.101", some []⟩⟩
    ⟨some "5.15.0-91.101", some []⟩ rfl rfl rfl rfl

/-- C2: when no line of the registry response matches `REVISION_REGEX`,
`get_current_revision` (the spec's `CurrentRevision`) fails with the
discovery-stage error `NoRevisionsFound` (the `ValueError` that
`max([])` raises deterministically at that point): it returns no number at
all, in particular no sentinel `0`. -/
theorem currentRevision_no_matches_noRevisionsFound (stdout : String)
    (h : ∀ l ∈ splitLines stdout.data, searchRevision l = none) :
    get_current_revision true stdout = .error .NoRevisionsFound := by
  have hc : collectRevisions stdout = [] := by
    unfold collectRevisions
    exact List.filterMap_eq_nil_iff.mpr h
  unfold get_current_revision
  rw [hc]
  rfl

/-- Witness for C2 at a concrete match-free response. -/
theorem currentRevision_no_matches_noRevisionsFound_witness :
    get_current_revision true "name: pc-kernel\nsummary: no revisions here" =
      .error .NoRevisionsFound :=
  currentRevision_no_matches_noRevisionsFound
    "name: pc-kernel\nsummary: no revisions here" (by decide)

/-- C3: whenever the scan collects at least one revision record,
`get_current_revision` returns the arithmetic maximum of all collected
integers, and the result is unchanged for any second response text whose
lines are the same up to reordering and duplication. -/
theorem currentRevision_max_of_matches (t₁ t₂ : String)
    (hne : collectRevisions t₁ ≠ [])
    (hlines : ∀ l : List Char, l ∈ splitLines t₁.data ↔ l ∈ splitLines t₂.data) :
    ∃ m, get_current_revision true t₁ = .ok m ∧
      m ∈ collectRevisions t₁ ∧
      (∀ x ∈ collectRevisions t₁, x ≤ m) ∧
      get_current_revision true t₂ = .ok m := by
  have hmem : ∀ n : Nat, n ∈ collectRevisions t₁ ↔ n ∈ collectRevisions t₂ := by
    intro n
    unfold collectRevisions
    rw [List.mem_filterMap, List.mem_filterMap]
    constructor
    · rintro ⟨l, hl, hs⟩
      exact ⟨l, (hlines l).mp hl, hs⟩
    · rintro ⟨l, hl, hs⟩
      exact ⟨l, (hlines l).mpr hl, hs⟩
  obtain ⟨m₁, h₁, hm₁, hmax₁⟩ := currentRevision_is_max t₁ hne
  have hne₂ : collectRevisions t₂ ≠ [] := by
    intro h
    have hin := (hmem m₁).mp hm₁
    rw [h] at hin
    cases hin
  obtain ⟨m₂, h₂, hm₂, hmax₂⟩ := currentRevision_is_max t₂ hne₂
  have heq : m₂ = m₁ :=
    Nat.le_antisymm (hmax₁ m₂ ((hmem m₂).mpr hm₂)) (hmax₂ m₁ ((hmem m₁).mp hm₁))
  exact ⟨m₁, h₁, hm₁, hmax₁, heq ▸ h₂⟩

/-- Witness for C3: records `7` and `15`, against a reordered and
duplicated variant of the same lines; both runs report `15`. -/
theorem currentRevision_max_of_matches_witness :
    get_current_revision true "2024-01-01 (7)\n2024-01-02 (15)" = .ok 15 ∧
      get_current_revision true
        "2024-01-02 (15)\n2024-01-01 (7)\n2024-01-01 (7)" = .ok 15 := by
  obtain ⟨m, h₁, hm, hmax, h₂⟩ := currentRevision_max_of_matches
    "2024-01-01 (7)\n2024-01-02 (15)"
    "2024-01-02 (15)\n2024-01-01 (7)\n2024-01-01 (7)"
    (by decide)
    (by
      intro l
      rw [show splitLines ("2024-01-01 (7)\n2024-01-02 (15)").data =
            ["2024-01-01 (7)".data, "2024-01-02 (15)".data] from rfl,
        show splitLines ("2024-01-02 (15)\n2024-01-01 (7)\n2024-01-01 (7)").data =
            ["2024-01-02 (15)".data, "2024-01-01 (7)".data,
              "2024-01-01 (7)".data] from rfl]
      simp only [List.mem_cons, List.not_mem_nil, or_false]
      tauto)
  have h15 : get_current_revision true "2024-01-01 (7)\n2024-01-02 (15)" =
      .ok 15 := rfl
  rw [h₁] at h15
  have hm15 : m = 15 := by
    injection h15 with h
  exact ⟨hm15 ▸ h₁, hm15 ▸ h₂⟩

/-- A healthy revision state for witnesses: download and extraction
succeed, the manifest declares one version and one architecture. -/
def goodRev : RevisionEnv := ⟨true, true, some ⟨some "5.15", some ["amd64"]⟩⟩

/-- A broken revision state for witnesses: `snap download` exits
non-zero. -/
def badRev : RevisionEnv := ⟨false, true, none⟩

/-- A witness world: the registry reports current revision 3 and only
revision 2's extraction fails. -/
def envW : Env := ⟨true, "2024-01-01 (3)", fun r => if r = 2 then badRev else goodRev⟩

/-- C4: when exactly one revision's extraction fails, its failure is
logged, its revision is absent from the `results` dict, the dict holds
exactly `currentRevision - 1` entries, the run does not abort and the
output file is still written. -/
theorem single_failure_isolated (env : Env) (order : List Nat) (cur r₀ : Nat)
    (err : ExtractError)
    (hcur : get_current_revision env.queryOk env.registry = .ok cur)
    (hord : order.Perm (descRange cur))
    (h1 : 1 ≤ r₀) (h2 : r₀ ≤ cur)
    (hfail : outcome env r₀ = .error err)
    (hok : ∀ r, 1 ≤ r → r ≤ cur → r ≠ r₀ → ∃ v a, outcome env r = .ok (v, a)) :
    (mainRun env order).results.length = cur - 1 ∧
      r₀ ∈ (mainRun env order).errors ∧
      r₀ ∉ (mainRun env order).results.map Prod.fst ∧
      (mainRun env order).file.isSome = true ∧
      (mainRun env order).fatal = none := by
  rw [mainRun_ok env order cur hcur]
  have rowNone : revisionRow env r₀ = none := by
    unfold revisionRow
    rw [hfail]
  have rowSome : ∀ x ∈ descRange cur, x ≠ r₀ → (revisionRow env x).isSome = true := by
    intro x hx hxne
    rcases mem_descRange.mp hx with ⟨hx1, hx2⟩
    obtain ⟨v, a, hva⟩ := hok x hx1 hx2 hxne
    unfold revisionRow
    rw [hva]
    rfl
  have hmemd : r₀ ∈ descRange cur := mem_descRange.mpr ⟨h1, h2⟩
  refine ⟨?_, ?_, ?_, rfl, rfl⟩
  · have hlen : (collectResults env order).length =
        (collectResults env (descRange cur)).length :=
      (hord.filterMap (revisionRow env)).length_eq
    rw [hlen]
    unfold collectResults
    rw [length_filterMap_single_none (revisionRow env) (descRange cur) r₀
      (descRange_nodup cur) hmemd rowNone rowSome]
    rw [descRange_length]
  · unfold collectErrors
    refine List.mem_filter.mpr ⟨hord.mem_iff.mpr hmemd, ?_⟩
    rw [rowNone]
    rfl
  · rw [map_fst_collectResults]
    intro hmem
    have := (List.mem_filter.mp hmem).2
    rw [rowNone] at this
    cases this

/-- Witness for C4: current revision 3, only revision 2 fails, and the
completion order is scrambled; the dict ends with 2 entries. -/
theorem single_failure_isolated_witness :
    (mainRun envW [1, 3, 2]).results.length = 2 ∧
      2 ∈ (mainRun envW [1, 3, 2]).errors ∧
      2 ∉ (mainRun envW [1, 3, 2]).results.map Prod.fst ∧
      (mainRun envW [1, 3, 2]).file.isSome = true ∧
      (mainRun envW [1, 3, 2]).fatal = none :=
  single_failure_isolated envW [1, 3, 2] 3 2 .FetchFailed rfl (by decide)
    (by decide) (by decide) rfl
    (by
      intro r hr1 hr2 hrne
      interval_cases r
      · exact ⟨"5.15", "amd64", rfl⟩
      · exact absurd rfl hrne
      · exact ⟨"5.15", "amd64", rfl⟩)

/-- C5: for every completion order of the workers, the file written at the
end is the header row `revision, version, architecture` followed by one row
per successful revision, in strictly ascending revision order — the
canonical row list over the ascending domain, independent of `order`. -/
theorem output_sorted_by_revision (env : Env) (order : List Nat) (cur : Nat)
    (hcur : get_current_revision env.queryOk env.registry = .ok cur)
    (hord : order.Perm (descRange cur)) :
    (mainRun env order).file =
      some (headerRow :: (collectResults env (ascRange cur)).map rowStrings) ∧
      (collectResults env (ascRange cur)).Pairwise keyLT ∧
      (∀ r v a, (r, v, a) ∈ collectResults env (ascRange cur) ↔
        (1 ≤ r ∧ r ≤ cur ∧ outcome env r = .ok (v, a))) := by
  refine ⟨?_, collect_asc_pairwise env cur, fun r v a => mem_collect_asc⟩
  rw [mainRun_ok env order cur hcur]
  simp only
  rw [sortPairs_collect_canonical env hord]

/-- Witness for C5: with completion order `[1, 3, 2]` the file still lists
revision 1 before revision 3, revision 2 absent. -/
theorem output_sorted_by_revision_witness :
    (mainRun envW [1, 3, 2]).file =
      some [["revision", "version", "architecture"],
        ["1", "5.15", "amd64"], ["3", "5.15", "amd64"]] := by
  have h := output_sorted_by_revision envW [1, 3, 2] 3 rfl (by decide)
  rw [h.1]
  rfl

/-- C6: after discovery reports `cur`, the orchestrator's submission list
is exactly the descending sequence `cur, cur-1, ..., 1`: it has `cur`
entries with the `i`-th equal to `cur - i`, contains a revision `r` exactly
when `1 ≤ r ≤ cur`, and contains no duplicates, so each revision in the
domain is submitted exactly once. -/
theorem revision_domain_exact (env : Env) (order : List Nat) (cur : Nat)
    (hcur : get_current_revision env.queryOk env.registry = .ok cur) :
    (mainRun env order).scheduled = descRange cur ∧
      (descRange cur).length = cur ∧
      (descRange cur).Nodup ∧
      (∀ r, r ∈ descRange cur ↔ 1 ≤ r ∧ r ≤ cur) ∧
      (∀ i, i < cur → (descRange cur)[i]? = some (cur - i)) := by
  refine ⟨?_, descRange_length cur, descRange_nodup cur,
    fun r => mem_descRange, fun i hi => descRange_getElem? hi⟩
  rw [mainRun_ok env order cur hcur]

/-- Witness for C6 at current revision 3: the domain is `[3, 2, 1]`. -/
theorem revision_domain_exact_witness :
    (mainRun envW [3, 2, 1]).scheduled = [3, 2, 1] := by
  have h := revision_domain_exact envW [3, 2, 1] 3 rfl
  rw [h.1]
  rfl

/-- C7: when the discovery stage fails (either way), `main` terminates at
once with that error: nothing is submitted, no outcome is collected or
logged, and the output file is never opened, so no partial output exists. -/
theorem fatal_discovery_no_output (env : Env) (order : List Nat)
    (e : SourceError)
    (hfail : get_current_revision env.queryOk env.registry = .error e) :
    mainRun env order = ⟨[], [], [], none, some e⟩ := by
  unfold mainRun
  rw [hfail]

/-- Witness for C7: a failing registry query schedules nothing and writes
nothing. -/
theorem fatal_discovery_no_output_witness :
    mainRun ⟨false, "2024-01-01 (3)", fun _ => goodRev⟩ [3, 2, 1] =
      ⟨[], [], [], none, some .SourceUnavailable⟩ :=
  fatal_discovery_no_output ⟨false, "2024-01-01 (3)", fun _ => goodRev⟩
    [3, 2, 1] .SourceUnavailable rfl

/-- C8: two runs of `main` against the same registry and archive state
write identical output files, whatever the two completion orders were. -/
theorem idempotent_output (env : Env) (o₁ o₂ : List Nat) (cur : Nat)
    (hcur : get_current_revision env.queryOk env.registry = .ok cur)
    (h₁ : o₁.Perm (descRange cur)) (h₂ : o₂.Perm (descRange cur)) :
    (mainRun env o₁).file = (mainRun env o₂).file := by
  rw [mainRun_ok env o₁ cur hcur, mainRun_ok env o₂ cur hcur]
  simp only
  rw [sortPairs_collect_canonical env h₁, sortPairs_collect_canonical env h₂]

/-- Witness for C8: two scrambled completion orders of the same world give
the same file. -/
theorem idempotent_output_witness :
    (mainRun envW [1, 3, 2]).file = (mainRun envW [2, 1, 3]).file :=
  idempotent_output envW [1, 3, 2] [2, 1, 3] 3 rfl (by decide) (by decide)

/-- C9: the scan keeps at most one number per input line (the candidate
list is never longer than the line list), and the number a line contributes
is the leftmost match: `re.search` tries the suffixes of the line longest
first and returns the first success, so a line holding two records
contributes only the first one. -/
theorem search_first_match_per_line :
    (∀ stdout : String,
        (collectRevisions stdout).length ≤ (splitLines stdout.data).length) ∧
      (∀ cs : List Char, searchRevision cs = cs.tails.findSome? matchAt) ∧
      searchRevision ("2024-01-02 (7) 2023-01-01 (99)").data = some 7 := by
  refine ⟨fun stdout => List.length_filterMap_le _ _, fun cs => ?_, rfl⟩
  induction cs with
  | nil => rfl
  | cons c cs ih =>
    rw [List.tails_cons, List.findSome?_cons]
    unfold searchRevision
    cases matchAt (c :: cs) <;> simp [ih]

/-- A witness world for C10: discovery reports revision 2 and every
download fails. -/
def envAllFail : Env := ⟨true, "2024-01-01 (2)", fun _ => badRev⟩

/-- C10: when discovery succeeds but every revision's extraction fails, the
run still completes without a fatal error and writes an output file holding
exactly the header row and no data rows. -/
theorem all_fail_header_only_output (env : Env) (order : List Nat) (cur : Nat)
    (hcur : get_current_revision env.queryOk env.registry = .ok cur)
    (hfail : ∀ r, ∃ e, outcome env r = .error e) :
    (mainRun env order).file = some [headerRow] ∧
      (mainRun env order).results = [] ∧
      (mainRun env order).fatal = none := by
  have hnone : ∀ r, revisionRow env r = none := by
    intro r
    obtain ⟨e, he⟩ := hfail r
    unfold revisionRow
    rw [he]
  have hc : collectResults env order = [] :=
    List.filterMap_eq_nil_iff.mpr (fun r _ => hnone r)
  rw [mainRun_ok env order cur hcur]
  refine ⟨?_, hc, rfl⟩
  simp only [hc]
  rfl

/-- Witness for C10: both revisions fail, the file is just the header. -/
theorem all_fail_header_only_output_witness :
    (mainRun envAllFail [2, 1]).file =
      some [["revision", "version", "architecture"]] ∧
      (mainRun envAllFail [2, 1]).results = [] :=
  have h := all_fail_header_only_output envAllFail [2, 1] 2 rfl
    (fun _ => ⟨.FetchFailed, rfl⟩)
  ⟨h.1, h.2.1⟩
